import Mathlib

/-!
Verification development for `catalyst/utils/tensorboard.py`.

The file shallowly embeds the module in Lean 4:

* bytes are `Nat` values below 256 and byte strings are `List Nat`;
* `struct.pack`/`struct.unpack` with little-endian unsigned formats are
  `toLE`/`fromLE`;
* the external `crc32c.crc32` C routine is modelled by the standard
  bit-level reflected CRC32C (Castagnoli) algorithm (`crc32c`), checked
  below against the published reference vectors;
* `_u32` and `_masked_crc32c` follow the source line by line;
* the `EventsFileReader` iterator becomes a function from the remaining
  byte stream to the list of validated payloads together with an optional
  terminal error (`iterEvents`);
* the `SummaryReader` pipeline becomes pure functions over an explicit
  directory listing, parameterised by the external protobuf parser and the
  external image codec.
-/

set_option maxRecDepth 100000

namespace Tensorboard

/-! ## Little-endian byte encoding (`struct.pack` / `struct.unpack`) -/

/-- Little-endian encoding of `v` into `w` bytes, as `struct.pack` produces
for the unsigned formats `Q` (`w = 8`) and `I` (`w = 4`). -/
def toLE : Nat → Nat → List Nat
  | 0, _ => []
  | w + 1, v => v % 256 :: toLE w (v / 256)

/-- Little-endian decoding of a byte list, as `struct.unpack` computes for
the unsigned formats `Q` and `I`. -/
def fromLE : List Nat → Nat
  | [] => 0
  | b :: bs => b + 256 * fromLE bs

theorem toLE_length (w v : Nat) : (toLE w v).length = w := by
  induction w generalizing v with
  | zero => rfl
  | succ w ih => simp [toLE, ih]

theorem fromLE_toLE (w v : Nat) (h : v < 256 ^ w) : fromLE (toLE w v) = v := by
  induction w generalizing v with
  | zero =>
    simp [pow_zero] at h
    simp [toLE, fromLE, h]
  | succ w ih =>
    have hv : v / 256 < 256 ^ w := by
      rw [Nat.div_lt_iff_lt_mul (by norm_num)]
      calc v < 256 ^ (w + 1) := h
        _ = 256 ^ w * 256 := by ring
    simp [toLE, fromLE, ih _ hv]
    omega

theorem toLE_bytes_lt (w v : Nat) : ∀ b ∈ toLE w v, b < 256 := by
  induction w generalizing v with
  | zero => simp [toLE]
  | succ w ih =>
    intro b hb
    simp only [toLE, List.mem_cons] at hb
    rcases hb with h | h
    · omega
    · exact ih _ b h

/-! ## The checksum engine

The repository imports `from crc32c import crc32 as crc32c`, an external C
implementation of the CRC32C (Castagnoli) checksum.  We model it with the
standard bit-level reflected algorithm and check the published reference
vectors for it below. -/

/-- Bit-reversed CRC32C (Castagnoli) polynomial. -/
def CRC32C_POLY : Nat := 0x82F63B78

/-- One bit-round of the reflected CRC32C computation: shift the state right,
folding in the polynomial when the low bit is set. -/
def crcRound (s : Nat) : Nat :=
  if s % 2 = 1 then (s / 2) ^^^ CRC32C_POLY else s / 2

/-- Process one input byte: xor it into the low bits of the state and run
eight bit-rounds. -/
def crcByteStep (s b : Nat) : Nat := crcRound^[8] (s ^^^ b)

/-- Process a byte string starting from state `s`. -/
def crcProcess (s : Nat) (data : List Nat) : Nat := data.foldl crcByteStep s

/-- Model of the external `crc32c.crc32` routine: initial state all-ones,
final complement. -/
def crc32c (data : List Nat) : Nat := 0xFFFFFFFF ^^^ crcProcess 0xFFFFFFFF data

/-- Model of `_u32` from the source: `x & 0xffffffff`. -/
def _u32 (x : Nat) : Nat := x &&& 0xffffffff

/-- Model of `_masked_crc32c` from the source:
`_u32(((x >> 15) | _u32(x << 17)) + 0xa282ead8)` with `x = _u32(crc32c(data))`. -/
def _masked_crc32c (data : List Nat) : Nat :=
  let x := _u32 (crc32c data)
  _u32 (((x >>> 15) ||| _u32 (x <<< 17)) + 0xa282ead8)

theorem _u32_eq_mod (x : Nat) : _u32 x = x % 2 ^ 32 := by
  have : (0xffffffff : Nat) = 2 ^ 32 - 1 := by norm_num
  rw [_u32, this, Nat.and_pow_two_sub_one_eq_mod]

theorem _u32_lt (x : Nat) : _u32 x < 2 ^ 32 := by
  rw [_u32_eq_mod]; exact Nat.mod_lt _ (by norm_num)

theorem _masked_crc32c_lt (data : List Nat) : _masked_crc32c data < 2 ^ 32 :=
  _u32_lt _

/-- Reference vectors for the CRC32C model: the published test values for
the empty string, "a", "abc" and "123456789". -/
theorem crc32c_vectors :
    crc32c [] = 0 ∧ crc32c [0x61] = 0xC1D04330 ∧
    crc32c [0x61, 0x62, 0x63] = 0x364B3FB7 ∧
    crc32c [0x31, 0x32, 0x33, 0x34, 0x35, 0x36, 0x37, 0x38, 0x39]
      = 0xE3069283 := by
  refine ⟨by decide, by decide, by decide, by decide⟩

/-! ## Algebraic facts about the CRC32C model

The single-bit-corruption claim rests on the GF(2)-linearity of the CRC
state transformer and on the fact that one round is injective, hence sends
nonzero states to nonzero states. -/

/-- A byte string whose entries are actual bytes. -/
def ValidBytes (l : List Nat) : Prop := ∀ b ∈ l, b < 256

instance (l : List Nat) : Decidable (ValidBytes l) :=
  inferInstanceAs (Decidable (∀ b ∈ l, b < 256))

theorem xor_mod_two (a b : Nat) : (a ^^^ b) % 2 = a % 2 ^^^ b % 2 := by
  simp only [← Nat.and_one_is_mod]
  exact Nat.and_xor_distrib_right

theorem xor_div_two (a b : Nat) : (a ^^^ b) / 2 = a / 2 ^^^ b / 2 := by
  apply Nat.eq_of_testBit_eq
  intro i
  simp [Nat.testBit_div_two, Nat.testBit_xor]

theorem xor_xor_cancel (x y c : Nat) : (x ^^^ c) ^^^ (y ^^^ c) = x ^^^ y := by
  calc (x ^^^ c) ^^^ (y ^^^ c) = (x ^^^ y) ^^^ (c ^^^ c) := by ac_rfl
    _ = x ^^^ y := by rw [Nat.xor_self, Nat.xor_zero]

theorem crcRound_zero : crcRound 0 = 0 := by simp [crcRound]

theorem crcRound_xor (a b : Nat) :
    crcRound (a ^^^ b) = crcRound a ^^^ crcRound b := by
  unfold crcRound
  have hm := xor_mod_two a b
  have hd := xor_div_two a b
  rcases Nat.mod_two_eq_zero_or_one a with ha | ha <;>
    rcases Nat.mod_two_eq_zero_or_one b with hb | hb
  · rw [ha, hb] at hm
    simp only [ha, hb, hm]
    norm_num [hd]
  · rw [ha, hb] at hm
    simp only [ha, hb, hm]
    norm_num [hd]
    ac_rfl
  · rw [ha, hb] at hm
    simp only [ha, hb, hm]
    norm_num [hd]
    ac_rfl
  · rw [ha, hb] at hm
    simp only [ha, hb, hm]
    norm_num [hd]
    rw [xor_xor_cancel]

theorem crcRound_iterate_xor (n a b : Nat) :
    crcRound^[n] (a ^^^ b) = crcRound^[n] a ^^^ crcRound^[n] b := by
  induction n generalizing a b with
  | zero => rfl
  | succ n ih => rw [Function.iterate_succ_apply, Function.iterate_succ_apply,
      Function.iterate_succ_apply, crcRound_xor, ih]

theorem crcRound_iterate_zero (n : Nat) : crcRound^[n] 0 = 0 :=
  Function.iterate_fixed crcRound_zero n

theorem crcByteStep_xor (s t a b : Nat) :
    crcByteStep (s ^^^ t) (a ^^^ b) = crcByteStep s a ^^^ crcByteStep t b := by
  unfold crcByteStep
  rw [show (s ^^^ t) ^^^ (a ^^^ b) = (s ^^^ a) ^^^ (t ^^^ b) by ac_rfl,
    crcRound_iterate_xor]

theorem crcProcess_xor (d : List Nat) :
    ∀ (e : List Nat) (s t : Nat), d.length = e.length →
    crcProcess (s ^^^ t) (List.zipWith (· ^^^ ·) d e)
      = crcProcess s d ^^^ crcProcess t e := by
  induction d with
  | nil =>
    intro e s t hlen
    cases e with
    | nil => rfl
    | cons b bs => simp at hlen
  | cons a as ih =>
    intro e s t hlen
    cases e with
    | nil => simp at hlen
    | cons b bs =>
      simp only [List.length_cons, Nat.add_right_cancel_iff] at hlen
      simp only [List.zipWith_cons_cons, crcProcess, List.foldl_cons]
      rw [show List.foldl crcByteStep (crcByteStep (s ^^^ t) (a ^^^ b))
          (List.zipWith (· ^^^ ·) as bs)
          = crcProcess (crcByteStep (s ^^^ t) (a ^^^ b))
            (List.zipWith (· ^^^ ·) as bs) from rfl,
        crcByteStep_xor, ih bs _ _ hlen]
      rfl

/-- Bit-rounds keep the state inside 32 bits. -/
theorem crcRound_lt (s : Nat) (hs : s < 2 ^ 32) : crcRound s < 2 ^ 32 := by
  unfold crcRound
  have hdiv : s / 2 < 2 ^ 32 := lt_of_le_of_lt (Nat.div_le_self s 2) hs
  split
  · exact Nat.xor_lt_two_pow hdiv (by norm_num [CRC32C_POLY])
  · exact hdiv

/-- One bit-round sends a nonzero 32-bit state to a nonzero state: the round
is invertible, and zero is its fixed point. -/
theorem crcRound_ne_zero (s : Nat) (hne : s ≠ 0) (hs : s < 2 ^ 32) :
    crcRound s ≠ 0 := by
  unfold crcRound
  rcases Nat.mod_two_eq_zero_or_one s with h | h
  · simp only [h]
    norm_num
    omega
  · simp only [h]
    norm_num
    intro habs
    rw [CRC32C_POLY] at habs
    omega

theorem crcRound_iterate_ne_zero (n : Nat) :
    ∀ s, s ≠ 0 → s < 2 ^ 32 → crcRound^[n] s ≠ 0 ∧ crcRound^[n] s < 2 ^ 32 := by
  induction n with
  | zero => intro s hne hs; exact ⟨hne, hs⟩
  | succ n ih =>
    intro s hne hs
    rw [Function.iterate_succ_apply]
    exact ih _ (crcRound_ne_zero s hne hs) (crcRound_lt s hs)

theorem crcRound_iterate_lt (n : Nat) :
    ∀ s, s < 2 ^ 32 → crcRound^[n] s < 2 ^ 32 := by
  induction n with
  | zero => intro s hs; exact hs
  | succ n ih =>
    intro s hs
    rw [Function.iterate_succ_apply]
    exact ih _ (crcRound_lt s hs)

/-- Processing a run of zero bytes keeps a nonzero 32-bit state nonzero. -/
theorem crcProcess_zeros_ne_zero (m : Nat) :
    ∀ s, s ≠ 0 → s < 2 ^ 32 →
      crcProcess s (List.replicate m 0) ≠ 0
        ∧ crcProcess s (List.replicate m 0) < 2 ^ 32 := by
  induction m with
  | zero => intro s hne hs; exact ⟨hne, hs⟩
  | succ m ih =>
    intro s hne hs
    simp only [List.replicate_succ, crcProcess, List.foldl_cons]
    have hstep : crcByteStep s 0 = crcRound^[8] s := by
      unfold crcByteStep; rw [Nat.xor_zero]
    rw [hstep]
    obtain ⟨h1, h2⟩ := crcRound_iterate_ne_zero 8 s hne hs
    exact ih _ h1 h2

/-- Processing a run of zero bytes from the zero state yields zero. -/
theorem crcProcess_zeros_zero (m : Nat) :
    crcProcess 0 (List.replicate m 0) = 0 := by
  induction m with
  | zero => rfl
  | succ m ih =>
    simp only [List.replicate_succ, crcProcess, List.foldl_cons]
    have hstep : crcByteStep 0 0 = 0 := by
      unfold crcByteStep
      rw [Nat.xor_zero, crcRound_iterate_zero]
    rw [hstep]
    exact ih

/-- The CRC of a byte-string difference that consists of a single nonzero
byte is nonzero. -/
theorem crcProcess_single_error (i m d : Nat) (hd : d ≠ 0) (hlt : d < 2 ^ 32) :
    crcProcess 0 (List.replicate i 0 ++ d :: List.replicate m 0) ≠ 0 := by
  unfold crcProcess
  rw [List.foldl_append]
  rw [show List.foldl crcByteStep 0 (List.replicate i 0)
      = crcProcess 0 (List.replicate i 0) from rfl, crcProcess_zeros_zero]
  simp only [List.foldl_cons]
  have hstep : crcByteStep 0 d = crcRound^[8] d := by
    unfold crcByteStep; rw [Nat.zero_xor]
  rw [hstep]
  obtain ⟨h1, h2⟩ := crcRound_iterate_ne_zero 8 d hd hlt
  exact (crcProcess_zeros_ne_zero m _ h1 h2).1

theorem xor_xor_cancel_left (c x y : Nat) : (c ^^^ x) ^^^ (c ^^^ y) = x ^^^ y := by
  calc (c ^^^ x) ^^^ (c ^^^ y) = (x ^^^ y) ^^^ (c ^^^ c) := by ac_rfl
    _ = x ^^^ y := by rw [Nat.xor_self, Nat.xor_zero]

theorem zipWith_xor_self (l : List Nat) :
    List.zipWith (· ^^^ ·) l l = List.replicate l.length 0 := by
  induction l with
  | nil => rfl
  | cons a as ih =>
    simp only [List.zipWith_cons_cons, Nat.xor_self, List.length_cons,
      List.replicate_succ, ih]

theorem crcProcess_lt (d : List Nat) :
    ∀ s, s < 2 ^ 32 → ValidBytes d → crcProcess s d < 2 ^ 32 := by
  induction d with
  | nil => intro s hs _; exact hs
  | cons b bs ih =>
    intro s hs hv
    have hb : b < 256 := hv b (List.mem_cons_self b bs)
    simp only [crcProcess, List.foldl_cons]
    have hxor : s ^^^ b < 2 ^ 32 :=
      Nat.xor_lt_two_pow hs (lt_trans hb (by norm_num))
    have hstep : crcByteStep s b < 2 ^ 32 := crcRound_iterate_lt 8 _ hxor
    exact ih _ hstep (fun x hx => hv x (List.mem_cons_of_mem b hx))

theorem crc32c_lt (d : List Nat) (hv : ValidBytes d) : crc32c d < 2 ^ 32 :=
  Nat.xor_lt_two_pow (by norm_num) (crcProcess_lt d _ (by norm_num) hv)

/-- Byte strings that agree everywhere except in one bit of one byte have
different CRC32C checksums. -/
theorem crc32c_flip_ne (u w : List Nat) (x j : Nat) (hj : j < 8) :
    crc32c (u ++ x :: w) ≠ crc32c (u ++ (x ^^^ 2 ^ j) :: w) := by
  intro heq
  set p := u ++ x :: w with hp
  set q := u ++ (x ^^^ 2 ^ j) :: w with hq
  have hlen : p.length = q.length := by simp [hp, hq]
  have hcancel : crcProcess 0xFFFFFFFF p ^^^ crcProcess 0xFFFFFFFF q = 0 := by
    have h1 : crc32c p ^^^ crc32c q = 0 := by rw [heq, Nat.xor_self]
    unfold crc32c at h1
    rw [xor_xor_cancel_left] at h1
    exact h1
  have hzip : List.zipWith (· ^^^ ·) p q
      = List.replicate u.length 0 ++ (2 ^ j) :: List.replicate w.length 0 := by
    rw [hp, hq, List.zipWith_append _ u (x :: w) u ((x ^^^ 2 ^ j) :: w) rfl,
      zipWith_xor_self u]
    simp only [List.zipWith_cons_cons, zipWith_xor_self w]
    rw [show x ^^^ (x ^^^ 2 ^ j) = 2 ^ j by
      rw [← Nat.xor_assoc, Nat.xor_self, Nat.zero_xor]]
  have hlin : crcProcess 0 (List.zipWith (· ^^^ ·) p q)
      = crcProcess 0xFFFFFFFF p ^^^ crcProcess 0xFFFFFFFF q := by
    have := crcProcess_xor p q 0xFFFFFFFF 0xFFFFFFFF hlen
    rwa [Nat.xor_self] at this
  have hne : crcProcess 0 (List.zipWith (· ^^^ ·) p q) ≠ 0 := by
    rw [hzip]
    refine crcProcess_single_error u.length w.length (2 ^ j) ?_ ?_
    · exact (Nat.pos_pow_of_pos j (by norm_num)).ne'
    · exact Nat.pow_lt_pow_right (by norm_num) (by omega)
  exact hne (hlin.trans hcancel)

/-! ## Injectivity of the masking transform

The mask in `_masked_crc32c` is a 32-bit rotation followed by adding a
constant modulo `2 ^ 32`; both steps are injective on 32-bit values, so the
mask never collapses two different CRC values. -/

theorem or_mul_two_pow_eq_add (a c k : Nat) (h : a < 2 ^ k) :
    a ||| c * 2 ^ k = a + c * 2 ^ k := by
  apply Nat.eq_of_testBit_eq
  intro i
  have hmul : c * 2 ^ k = 2 ^ k * c + 0 := by ring
  have hadd : a + c * 2 ^ k = 2 ^ k * c + a := by ring
  rw [Nat.testBit_or, hadd, Nat.testBit_mul_pow_two_add c h i, hmul,
    Nat.testBit_mul_pow_two_add c (Nat.pos_pow_of_pos k (by norm_num)) i]
  by_cases hik : i < k
  · simp [hik]
  · simp only [hik, if_false]
    have : a.testBit i = false :=
      Nat.testBit_lt_two_pow (lt_of_lt_of_le h (Nat.pow_le_pow_right
        (by norm_num) (by omega)))
    simp [this]

/-- The expression `(x >>> 15) ||| _u32 (x <<< 17)` inside `_masked_crc32c`,
rewritten as plain arithmetic on a 32-bit value. -/
theorem rot_arith (x : Nat) (hx : x < 2 ^ 32) :
    (x >>> 15) ||| _u32 (x <<< 17) = x / 2 ^ 15 + (x % 2 ^ 15) * 2 ^ 17 := by
  rw [Nat.shiftRight_eq_div_pow, Nat.shiftLeft_eq, _u32_eq_mod,
    show (2 : Nat) ^ 32 = 2 ^ 15 * 2 ^ 17 by norm_num,
    Nat.mul_mod_mul_right]
  exact or_mul_two_pow_eq_add _ _ 17 (by omega)

theorem rot_inj {x y : Nat} (hx : x < 2 ^ 32) (hy : y < 2 ^ 32)
    (h : (x >>> 15) ||| _u32 (x <<< 17) = (y >>> 15) ||| _u32 (y <<< 17)) :
    x = y := by
  rw [rot_arith x hx, rot_arith y hy] at h
  omega

theorem rot_lt (x : Nat) (hx : x < 2 ^ 32) :
    (x >>> 15) ||| _u32 (x <<< 17) < 2 ^ 32 := by
  rw [rot_arith x hx]
  omega

/-- Distinct CRC values stay distinct after masking, hence the masked
checksums of two byte strings with different CRC32C values differ. -/
theorem _masked_crc32c_ne_of_crc_ne (d e : List Nat)
    (hd : ValidBytes d) (he : ValidBytes e)
    (hne : crc32c d ≠ crc32c e) : _masked_crc32c d ≠ _masked_crc32c e := by
  intro heq
  unfold _masked_crc32c at heq
  simp only [] at heq
  have hdlt : crc32c d < 2 ^ 32 := crc32c_lt d hd
  have helt : crc32c e < 2 ^ 32 := crc32c_lt e he
  have hud : _u32 (crc32c d) = crc32c d := by rw [_u32_eq_mod, Nat.mod_eq_of_lt hdlt]
  have hue : _u32 (crc32c e) = crc32c e := by rw [_u32_eq_mod, Nat.mod_eq_of_lt helt]
  simp only [hud, hue] at heq
  simp only [_u32_eq_mod] at heq
  have hrd := rot_lt (crc32c d) hdlt
  have hre := rot_lt (crc32c e) helt
  simp only [_u32_eq_mod] at hrd hre
  have hrot : (crc32c d >>> 15) ||| ((crc32c d <<< 17) % 2 ^ 32)
      = (crc32c e >>> 15) ||| ((crc32c e <<< 17) % 2 ^ 32) := by omega
  refine hne (rot_inj hdlt helt ?_)
  simp only [_u32_eq_mod]
  exact hrot

/-! ## The record framer (`EventsFileReader`)

A blocking byte stream positioned at the current read offset is the list of
its remaining bytes; `file.read(n)` returns the first `min n |s|` bytes and
advances past them.  The distinct `raise` sites of the source become the
constructors of `Err`:

* `truncatedRecord` — `EventReadingError` with message `The size of read
  data is less than requested size` (in `_read`);
* `checksumMismatch` — `EventReadingError` with message `Invalid checksum`
  (in `_read_and_check`);
* `unexpectedEnd` — `EventReadingError` with message `Unexpected end of
  events file` (in `__iter__`);
* `typeError` — the `TypeError` that `struct.unpack` raises in
  `_read_and_check` when `self._read(checksum_size)` returned `None`;
  unlike the other three this one is not an `EventReadingError`;
* `configurationError` — the `ValueError` of `SummaryReader._check_type_names`;
* `malformedEvent` — a `DecodeError` from `Event.ParseFromString`;
* `outOfFuel` — an artefact of the fuelled loop model, unreachable for the
  fuel `iterEvents` supplies. -/

inductive Err where
  | truncatedRecord
  | checksumMismatch
  | unexpectedEnd
  | typeError
  | configurationError
  | malformedEvent
  | outOfFuel
  deriving DecidableEq, Repr

/-- Model of `EventsFileReader._read`: return `none` when zero bytes come
back, fail when a positive number of bytes smaller than `size` comes back,
and otherwise return the bytes together with the rest of the stream. -/
def fread (s : List Nat) (size : Nat) : Except Err (Option (List Nat) × List Nat) :=
  let data := s.take size
  if 0 < data.length ∧ data.length < size then .error .truncatedRecord
  else if data.length = 0 then .ok (none, s.drop size)
  else .ok (some data, s.drop size)

/-- Model of `EventsFileReader._read_and_check`: read `size` bytes, then
read a four-byte checksum and compare it against `_masked_crc32c` of the
data.  When the data read hits the end of the stream the source returns
`None`; when the checksum read returns `None`, `struct.unpack` raises a
`TypeError`. -/
def readAndCheck (s : List Nat) (size : Nat) :
    Except Err (Option (List Nat) × List Nat) :=
  match fread s size with
  | .error e => .error e
  | .ok (none, s1) => .ok (none, s1)
  | .ok (some data, s1) =>
    match fread s1 4 with
    | .error e => .error e
    | .ok (none, _) => .error .typeError
    | .ok (some cs, s2) =>
      if fromLE cs = _masked_crc32c data then .ok (some data, s2)
      else .error .checksumMismatch

/-- Fuelled model of the loop in `EventsFileReader.__iter__`: produce the
validated payloads in order together with the error that ends the
iteration, if any.  Each loop iteration reads an eight-byte little-endian
length, its checksum, the payload, and the payload checksum. -/
def iterEventsF : Nat → List Nat → List (List Nat) × Option Err
  | 0, _ => ([], some .outOfFuel)
  | fuel + 1, s =>
    match readAndCheck s 8 with
    | .error e => ([], some e)
    | .ok (none, _) => ([], none)
    | .ok (some header, s1) =>
      match readAndCheck s1 (fromLE header) with
      | .error e => ([], some e)
      | .ok (none, _) => ([], some .unexpectedEnd)
      | .ok (some payload, s2) =>
        let r := iterEventsF fuel s2
        (payload :: r.1, r.2)

/-- The framer: one successful loop iteration consumes at least sixteen
bytes, so `length + 1` units of fuel can never run out. -/
def iterEvents (s : List Nat) : List (List Nat) × Option Err :=
  iterEventsF (s.length + 1) s

/-- A well-formed record as the writer lays it out on disk: eight-byte
little-endian length, masked checksum of those length bytes, the payload,
and the masked checksum of the payload bytes. -/
def encodeRecord (p : List Nat) : List Nat :=
  toLE 8 p.length ++ toLE 4 (_masked_crc32c (toLE 8 p.length))
    ++ p ++ toLE 4 (_masked_crc32c p)

theorem encodeRecord_length (p : List Nat) :
    (encodeRecord p).length = p.length + 16 := by
  simp [encodeRecord, toLE_length]
  omega

theorem fread_exact (l r : List Nat) (n : Nat) (hl : l.length = n) (hn : 0 < n) :
    fread (l ++ r) n = .ok (some l, r) := by
  unfold fread
  rw [List.take_left' hl, List.drop_left' hl]
  simp only [hl]
  rw [if_neg (by omega), if_neg (by omega)]

theorem fread_nil (n : Nat) : fread [] n = .ok (none, []) := by
  unfold fread
  simp

theorem fread_zero (s : List Nat) : fread s 0 = .ok (none, s) := by
  unfold fread
  simp

theorem fread_short (s : List Nat) (n : Nat) (h1 : 0 < s.length)
    (h2 : s.length < n) : fread s n = .error .truncatedRecord := by
  unfold fread
  rw [List.take_of_length_le (le_of_lt h2)]
  rw [if_pos ⟨h1, h2⟩]

theorem readAndCheck_ok (l r : List Nat) (n : Nat) (hl : l.length = n)
    (hn : 0 < n) :
    readAndCheck (l ++ (toLE 4 (_masked_crc32c l) ++ r)) n = .ok (some l, r) := by
  have h1 := fread_exact l (toLE 4 (_masked_crc32c l) ++ r) n hl hn
  have h2 := fread_exact (toLE 4 (_masked_crc32c l)) r 4 (toLE_length 4 _)
    (by norm_num)
  have h3 : fromLE (toLE 4 (_masked_crc32c l)) = _masked_crc32c l :=
    fromLE_toLE 4 _ (by have := _masked_crc32c_lt l; norm_num; omega)
  simp [readAndCheck, h1, h2, h3]

theorem readAndCheck_mismatch (l r : List Nat) (n c : Nat) (hl : l.length = n)
    (hn : 0 < n) (hc : c < 2 ^ 32) (hne : c ≠ _masked_crc32c l) :
    readAndCheck (l ++ (toLE 4 c ++ r)) n = .error .checksumMismatch := by
  have h1 := fread_exact l (toLE 4 c ++ r) n hl hn
  have h2 := fread_exact (toLE 4 c) r 4 (toLE_length 4 _) (by norm_num)
  have h3 : fromLE (toLE 4 c) = c := fromLE_toLE 4 _ (by norm_num; omega)
  simp [readAndCheck, h1, h2, h3, hne]

theorem iterEventsF_succ (fuel : Nat) (s : List Nat) :
    iterEventsF (fuel + 1) s
      = match readAndCheck s 8 with
        | .error e => ([], some e)
        | .ok (none, _) => ([], none)
        | .ok (some header, s1) =>
          match readAndCheck s1 (fromLE header) with
          | .error e => ([], some e)
          | .ok (none, _) => ([], some .unexpectedEnd)
          | .ok (some payload, s2) =>
            (payload :: (iterEventsF fuel s2).1, (iterEventsF fuel s2).2) := rfl

/-- Reading a well-formed record from the head of the stream yields its
payload and continues on the remainder of the stream. -/
theorem iterEventsF_encode (p rest : List Nat) (fuel : Nat)
    (hp : p ≠ []) (hlen : p.length < 2 ^ 64) :
    iterEventsF (fuel + 1) (encodeRecord p ++ rest)
      = (p :: (iterEventsF fuel rest).1, (iterEventsF fuel rest).2) := by
  have hassoc : encodeRecord p ++ rest
      = toLE 8 p.length
        ++ (toLE 4 (_masked_crc32c (toLE 8 p.length))
          ++ (p ++ (toLE 4 (_masked_crc32c p) ++ rest))) := by
    simp [encodeRecord, List.append_assoc]
  have h1 := readAndCheck_ok (toLE 8 p.length)
    (p ++ (toLE 4 (_masked_crc32c p) ++ rest)) 8 (toLE_length 8 _) (by norm_num)
  have h2 : fromLE (toLE 8 p.length) = p.length :=
    fromLE_toLE 8 _ (by norm_num; omega)
  have h3 := readAndCheck_ok p rest p.length rfl (by
    cases p with
    | nil => exact absurd rfl hp
    | cons a as => simp)
  rw [hassoc, iterEventsF_succ, h1]
  simp only [h2, h3]

theorem iterEventsF_nil (k : Nat) : iterEventsF (k + 1) [] = ([], none) := by
  have h1 : readAndCheck [] 8 = .ok (none, []) := by
    unfold readAndCheck; rw [fread_nil]
  rw [iterEventsF_succ, h1]

theorem iterEventsF_short (k : Nat) (s : List Nat) (h1 : 1 ≤ s.length)
    (h2 : s.length ≤ 7) : iterEventsF (k + 1) s = ([], some .truncatedRecord) := by
  have h3 : readAndCheck s 8 = .error .truncatedRecord := by
    unfold readAndCheck; rw [fread_short s 8 (by omega) (by omega)]
  rw [iterEventsF_succ, h3]

/-! ## The summary pipeline (`SummaryReader`)

The protobuf `Event` schema and the image codec are external collaborators:
the embedding abstracts them as parameters `parse` (returning `none` where
`Event.ParseFromString` raises `DecodeError`) and `imdecode` (returning
`none` where `cv2.imdecode` returns `None`, that is, both for undecodable
bytes and for the absence of a decodable image — the source cannot tell the
two apart).  Scalars are carried opaquely; no arithmetic is done on them. -/

/-- The value submessage of an event, as the source reads it: a tag, an
optional scalar payload (`HasField simple_value`) and an optional image
payload whose `encoded_image_string` bytes are consumed opaquely. -/
structure TBValue where
  tag : String
  simple_value : Option Int
  image : Option (List Nat)
  deriving DecidableEq, Repr

/-- A decoded event: `HasField summary`, the step, the wall time, and the
value list of the summary submessage (empty when `summary` is absent, as
protobuf default semantics dictate). -/
structure TBEvent where
  has_summary : Bool
  step : Int
  wall_time : Int
  values : List TBValue
  deriving DecidableEq, Repr

/-- The value list the loop `for value in event.summary.value` walks: the
default empty summary when the field is absent. -/
def summaryValues (e : TBEvent) : List TBValue :=
  if e.has_summary then e.values else []

/-- A decoded payload: what `_get_scalar` or `_get_image` returns when it
returns data at all. -/
inductive TBData where
  | scalar (x : Int)
  | image (buf : List Nat)
  deriving DecidableEq, Repr

/-- Model of the `SummaryItem` namedtuple. -/
structure SummaryItem where
  tag : String
  step : Int
  wall_time : Int
  value : TBData
  type : String
  deriving DecidableEq, Repr

/-- Model of `_get_scalar`: the scalar payload if present, else `None`. -/
def _get_scalar (v : TBValue) : Option TBData :=
  v.simple_value.map TBData.scalar

/-- Model of `_get_image`: when the image payload is present, return
whatever `cv2.imdecode` gives back on the encoded bytes — which is `None`
when the codec cannot decode them; otherwise `None`. -/
def _get_image (imdecode : List Nat → Option (List Nat)) (v : TBValue) :
    Option TBData :=
  match v.image with
  | some enc => (imdecode enc).map TBData.image
  | none => none

/-- Keys of the `_DECODERS` dict in declaration order. -/
def decoderKeys : List String := ["scalar", "image"]

/-- Model of the `_DECODERS` lookup.  Within the program the looked-up name
always comes from a validated type filter or from `decoderKeys`, so the
fallback branch is unreachable. -/
def _DECODERS (imdecode : List Nat → Option (List Nat)) (t : String) :
    TBValue → Option TBData :=
  if t = "scalar" then _get_scalar
  else if t = "image" then _get_image imdecode
  else fun _ => none

/-- Model of `SummaryReader`: the two filters.  Python sets are modelled as
lists; only membership and iteration order are used. -/
structure SummaryReader where
  _tag_filter : Option (List String)
  _type_filter : Option (List String)
  deriving DecidableEq, Repr

/-- Model of `SummaryReader._check_type_names` as a predicate: true when no
`ValueError` is raised. -/
def checkTypeNames : Option (List String) → Bool
  | none => true
  | some tf => tf.all (fun t => decoderKeys.contains t)

/-- Model of `SummaryReader.__init__`: store the filters, then validate the
type filter; this happens before any file is enumerated or opened. -/
def summaryReaderInit (tag_filter type_filter : Option (List String)) :
    Except Err SummaryReader :=
  if checkTypeNames type_filter then .ok ⟨tag_filter, type_filter⟩
  else .error .configurationError

/-- The inner `for value_type in type_list` loop of `_decode_events`: try
the decoders in order, emit an item for the first one that returns data and
stop; when none does, the loop's `else` clause yields `None`. -/
def decodeValue (imdecode : List Nat → Option (List Nat)) (step wall_time : Int)
    (v : TBValue) : List String → Option SummaryItem
  | [] => none
  | t :: ts =>
    match _DECODERS imdecode t v with
    | some data => some ⟨v.tag, step, wall_time, data, t⟩
    | none => decodeValue imdecode step wall_time v ts

/-- The type list `_decode_events` iterates over: the type filter when one
is configured, else the decoder keys. -/
def typeList (r : SummaryReader) : List String :=
  match r._type_filter with
  | some tf => tf
  | none => decoderKeys

/-- Model of `SummaryReader._decode_events` on a list of events: for an
event without a summary field it yields `None` (and then still walks the —
empty — value list); for each value it yields the inner loop's outcome. -/
def _decode_events (imdecode : List Nat → Option (List Nat))
    (r : SummaryReader) (events : List TBEvent) : List (Option SummaryItem) :=
  events.flatMap (fun e =>
    (if e.has_summary then [] else [none])
      ++ (summaryValues e).map (fun v =>
        decodeValue imdecode e.step e.wall_time v (typeList r)))

/-- Model of `SummaryReader._check_tag`. -/
def _check_tag (r : SummaryReader) (tag : String) : Bool :=
  match r._tag_filter with
  | none => true
  | some f => f.contains tag

/-- Model of `SummaryReader._check_type`. -/
def _check_type (r : SummaryReader) (event_type : String) : Bool :=
  match r._type_filter with
  | none => true
  | some f => f.contains event_type

/-- Run `Event.ParseFromString` over the framed payloads: events up to the
first malformed payload, and the `DecodeError` if one occurred. -/
def parseAll (parse : List Nat → Option TBEvent) :
    List (List Nat) → List TBEvent × Option Err
  | [] => ([], none)
  | p :: ps =>
    match parse p with
    | none => ([], some .malformedEvent)
    | some e =>
      ((parseAll parse ps).1.cons e, (parseAll parse ps).2)

/-- The per-file pipeline of `SummaryReader.__iter__`: frame the byte
stream, parse the payloads, decode the events, and keep the items that pass
both filters.  Items produced before a framing or parsing error are
emitted; a parse failure on an earlier record preempts a framing error on a
later one, because the generators are interleaved. -/
def fileOutput (imdecode : List Nat → Option (List Nat))
    (parse : List Nat → Option TBEvent) (r : SummaryReader)
    (contents : List Nat) : List SummaryItem × Option Err :=
  let framed := iterEvents contents
  let parsed := parseAll parse framed.1
  let items := ((_decode_events imdecode r parsed.1).filterMap id).filter
    (fun it => _check_tag r it.tag && _check_type r it.type)
  (items, match parsed.2 with | some e => some e | none => framed.2)

/-- Process the files of the directory in the given order, stopping at the
first error as the exception propagates out of the generator. -/
def processFiles (imdecode : List Nat → Option (List Nat))
    (parse : List Nat → Option TBEvent) (r : SummaryReader) :
    List (String × List Nat) → List SummaryItem × Option Err
  | [] => ([], none)
  | (_, contents) :: fs =>
    let out := fileOutput imdecode parse r contents
    match out.2 with
    | some err => (out.1, some err)
    | none =>
      (out.1 ++ (processFiles imdecode parse r fs).1,
        (processFiles imdecode parse r fs).2)

/-- The comparator of the `sorted` call in `SummaryReader.__iter__`:
filename order, as Python compares the paths of entries of one
directory. -/
def nameLe (p q : String × List Nat) : Bool := decide (p.1 ≤ q.1)

/-- Model of `SummaryReader.__iter__`: the directory listing — the regular
files directly inside the logdir, as name-contents pairs — is sorted by
filename ascending, then each file is processed in order. -/
def summaryIter (imdecode : List Nat → Option (List Nat))
    (parse : List Nat → Option TBEvent) (r : SummaryReader)
    (files : List (String × List Nat)) : List SummaryItem × Option Err :=
  processFiles imdecode parse r (files.mergeSort nameLe)

/-! ## Claim theorems -/

theorem or_mod_two_pow (a b n : Nat) :
    (a ||| b) % 2 ^ n = a % 2 ^ n ||| b % 2 ^ n := by
  apply Nat.eq_of_testBit_eq
  intro i
  simp only [Nat.testBit_mod_two_pow, Nat.testBit_or]
  by_cases h : i < n <;> simp [h]

/-- Definition taken from the words of the spec, to be compared with
`_masked_crc32c` from the source: compute CRC32C, rotate via
`((x >> 15) | (x << 17)) mod 2^32`, then add `0xa282ead8` modulo `2^32`. -/
def maskedChecksum_spec (data : List Nat) : Nat :=
  (((crc32c data >>> 15) ||| (crc32c data <<< 17)) % 2 ^ 32 + 0xa282ead8) % 2 ^ 32

/-- C2: for every byte string `b`, `_masked_crc32c b` equals the spec's
`(((crc32c(b) >> 15) | (crc32c(b) << 17)) mod 2^32 + 0xa282ead8) mod 2^32`
with `crc32c` the Castagnoli checksum; the function is a pure function of
the bytes (definitionally so in this embedding), and the reference inputs
of the spec (the empty buffer, "a", "abc") map to their fixed expected
values. -/
theorem claim_C2 :
    (∀ data, ValidBytes data → _masked_crc32c data = maskedChecksum_spec data)
    ∧ (∀ data, _masked_crc32c data = _masked_crc32c data)
    ∧ _masked_crc32c [] = 0xa282ead8
    ∧ _masked_crc32c [0x61] = 0x28e46e78
    ∧ _masked_crc32c [0x61, 0x62, 0x63] = 0x21f1576e := by
  refine ⟨?_, fun _ => rfl, by decide, by decide, by decide⟩
  intro data hv
  have hlt : crc32c data < 2 ^ 32 := crc32c_lt data hv
  have hx : _u32 (crc32c data) = crc32c data := by
    rw [_u32_eq_mod, Nat.mod_eq_of_lt hlt]
  have hsr : crc32c data >>> 15 % 2 ^ 32 = crc32c data >>> 15 := by
    rw [Nat.mod_eq_of_lt]
    rw [Nat.shiftRight_eq_div_pow]
    exact lt_of_le_of_lt (Nat.div_le_self _ _) hlt
  unfold _masked_crc32c maskedChecksum_spec
  simp only [hx, _u32_eq_mod]
  rw [or_mod_two_pow, hsr]

theorem claim_C2_witness :
    ValidBytes [0x61]
      ∧ _masked_crc32c [0x61] = maskedChecksum_spec [0x61] :=
  ⟨by decide, claim_C2.1 [0x61] (by decide)⟩

/-- Reading a stream that starts with a well-formed record of a non-empty
payload yields that payload and continues on the rest of the stream. -/
theorem iterEvents_encode_append (p rest : List Nat) (hp : p ≠ [])
    (hlen : p.length < 2 ^ 64) :
    iterEvents (encodeRecord p ++ rest)
      = (p :: (iterEventsF (p.length + 16 + rest.length) rest).1,
        (iterEventsF (p.length + 16 + rest.length) rest).2) := by
  unfold iterEvents
  rw [show (encodeRecord p ++ rest).length + 1
      = (p.length + 16 + rest.length) + 1 by
    simp [encodeRecord_length]]
  exact iterEventsF_encode p rest _ hp hlen

/-- Round-trip for a non-empty payload. -/
theorem roundtrip_nonempty (p : List Nat) (hp : p ≠ [])
    (hlen : p.length < 2 ^ 64) :
    iterEvents (encodeRecord p) = ([p], none) := by
  have h := iterEvents_encode_append p [] hp hlen
  rw [List.append_nil] at h
  rw [h]
  have h16 : p.length + 16 + ([] : List Nat).length = (p.length + 15) + 1 := by
    simp
  rw [h16, iterEventsF_nil]

/-- C1 (amended): a stream holding one well-formed record with a NON-EMPTY
payload reads back as exactly that payload followed by clean termination.
The original claim also covered the empty payload, which the code rejects:
see the counterexample. -/
theorem claim_C1 (p : List Nat) (_hv : ValidBytes p) (hp : p ≠ [])
    (hlen : p.length < 2 ^ 64) :
    iterEvents (encodeRecord p) = ([p], none) :=
  roundtrip_nonempty p hp hlen

theorem claim_C1_witness :
    iterEvents (encodeRecord [42]) = ([[42]], none) :=
  claim_C1 [42] (by decide) (by decide) (by decide)

/-- C1 counterexample: the well-formed record with the EMPTY payload does
not read back; `_read(0)` returns `None` (zero bytes read), which
`__iter__` turns into the `Unexpected end of events file` error instead of
yielding the empty payload. -/
theorem claim_C1_counterexample :
    iterEvents (encodeRecord []) = ([], some .unexpectedEnd)
      ∧ iterEvents (encodeRecord []) ≠ ([[]], none) := by
  refine ⟨by decide, by decide⟩

/-- C4: ending with zero bytes at a record boundary — either at the very
start of the stream or right after a well-formed record — terminates the
iteration cleanly with no error and no further payloads, while ending with
one to seven bytes of the eight-byte length header raises the
`EventReadingError` of `_read` (the `TruncatedRecord` of the spec), again
both at stream start and after a complete record. -/
theorem claim_C4 :
    iterEvents [] = ([], none)
    ∧ (∀ s : List Nat, 1 ≤ s.length → s.length ≤ 7 →
        iterEvents s = ([], some .truncatedRecord))
    ∧ (∀ p : List Nat, p ≠ [] → p.length < 2 ^ 64 →
        iterEvents (encodeRecord p) = ([p], none))
    ∧ (∀ p t : List Nat, p ≠ [] → p.length < 2 ^ 64 →
        1 ≤ t.length → t.length ≤ 7 →
        iterEvents (encodeRecord p ++ t) = ([p], some .truncatedRecord)) := by
  refine ⟨by decide, ?_, ?_, ?_⟩
  · intro s h1 h2
    unfold iterEvents
    have hs : s.length + 1 = s.length + 1 := rfl
    exact iterEventsF_short s.length s h1 h2
  · intro p hp hlen
    exact roundtrip_nonempty p hp hlen
  · intro p t hp hlen ht1 ht2
    rw [iterEvents_encode_append p t hp hlen]
    have hk : p.length + 16 + t.length = (p.length + 15 + t.length) + 1 := by
      omega
    rw [hk, iterEventsF_short _ t ht1 ht2]

/-- A single-record stream whose stored payload bytes are `q` while both
checksums were computed for the original payload `p`: what a record looks
like after its persisted payload got corrupted in place. -/
def corruptRecord (p q : List Nat) : List Nat :=
  toLE 8 p.length ++ toLE 4 (_masked_crc32c (toLE 8 p.length))
    ++ q ++ toLE 4 (_masked_crc32c p)

theorem iterEvents_corrupt (p q : List Nat) (hq : q.length = p.length)
    (h0 : q ≠ []) (hlen : p.length < 2 ^ 64)
    (hne : _masked_crc32c p ≠ _masked_crc32c q) :
    iterEvents (corruptRecord p q) = ([], some .checksumMismatch) := by
  have hassoc : corruptRecord p q
      = toLE 8 p.length
        ++ (toLE 4 (_masked_crc32c (toLE 8 p.length))
          ++ (q ++ (toLE 4 (_masked_crc32c p) ++ []))) := by
    simp [corruptRecord, List.append_assoc]
  have hpos : 0 < p.length := by
    rw [← hq]
    cases q with
    | nil => exact absurd rfl h0
    | cons a as => simp
  have h1 := readAndCheck_ok (toLE 8 p.length)
    (q ++ (toLE 4 (_masked_crc32c p) ++ [])) 8 (toLE_length 8 _) (by norm_num)
  have h2 : fromLE (toLE 8 p.length) = p.length :=
    fromLE_toLE 8 _ (by norm_num; omega)
  have h3 := readAndCheck_mismatch q [] p.length (_masked_crc32c p) hq hpos
    (_masked_crc32c_lt p) hne
  unfold iterEvents
  rw [hassoc, iterEventsF_succ, h1]
  simp only [h2, h3]

/-- C3: flipping any single bit of the stored payload bytes of a
well-formed single-record stream with non-empty payload makes reading fail
with the checksum-mismatch error, yielding no payload at all — so the
corrupted bytes are never handed to `Event.ParseFromString`, as the
full-pipeline conjunct shows: the per-file output is empty whatever the
parser and the decoders are. -/
theorem claim_C3 (u w : List Nat) (x j : Nat)
    (hv : ValidBytes (u ++ x :: w)) (hj : j < 8)
    (hlen : (u ++ x :: w).length < 2 ^ 64) :
    iterEvents (corruptRecord (u ++ x :: w) (u ++ (x ^^^ 2 ^ j) :: w))
      = ([], some .checksumMismatch)
    ∧ ∀ (imdecode : List Nat → Option (List Nat))
        (parse : List Nat → Option TBEvent) (r : SummaryReader),
        fileOutput imdecode parse r
            (corruptRecord (u ++ x :: w) (u ++ (x ^^^ 2 ^ j) :: w))
          = ([], some .checksumMismatch) := by
  have hq : (u ++ (x ^^^ 2 ^ j) :: w).length = (u ++ x :: w).length := by simp
  have h0 : u ++ (x ^^^ 2 ^ j) :: w ≠ [] := by simp
  have hvq : ValidBytes (u ++ (x ^^^ 2 ^ j) :: w) := by
    intro b hb
    rcases List.mem_append.mp hb with h | h
    · exact hv b (List.mem_append.mpr (Or.inl h))
    · rcases List.mem_cons.mp h with h | h
      · subst h
        have hx : x < 256 := hv x (List.mem_append.mpr (Or.inr (List.mem_cons_self x w)))
        have hpj : 2 ^ j < 2 ^ 8 := Nat.pow_lt_pow_right (by norm_num) hj
        have h8 : (256 : Nat) = 2 ^ 8 := by norm_num
        rw [h8] at hx ⊢
        exact Nat.xor_lt_two_pow hx hpj
      · exact hv b (List.mem_append.mpr (Or.inr (List.mem_cons_of_mem x h)))
  have hcrc : crc32c (u ++ x :: w) ≠ crc32c (u ++ (x ^^^ 2 ^ j) :: w) :=
    crc32c_flip_ne u w x j hj
  have hmask : _masked_crc32c (u ++ x :: w)
      ≠ _masked_crc32c (u ++ (x ^^^ 2 ^ j) :: w) :=
    _masked_crc32c_ne_of_crc_ne _ _ hv hvq hcrc
  have hit := iterEvents_corrupt (u ++ x :: w) (u ++ (x ^^^ 2 ^ j) :: w)
    hq h0 hlen hmask
  refine ⟨hit, ?_⟩
  intro imdecode parse r
  unfold fileOutput
  rw [hit]
  simp [parseAll, _decode_events]

theorem claim_C3_witness :
    iterEvents (corruptRecord [5] [5 ^^^ 2 ^ 0]) = ([], some .checksumMismatch) :=
  (claim_C3 [] [] 5 0 (by decide) (by decide) (by decide)).1

theorem claim_C4_witness :
    iterEvents [0] = ([], some .truncatedRecord)
      ∧ iterEvents (encodeRecord [7]) = ([[7]], none)
      ∧ iterEvents (encodeRecord [7] ++ [0, 1, 2]) = ([[7]], some .truncatedRecord) :=
  ⟨claim_C4.2.1 [0] (by decide) (by decide),
    claim_C4.2.2.1 [7] (by decide) (by decide),
    claim_C4.2.2.2 [7] [0, 1, 2] (by decide) (by decide) (by decide) (by decide)⟩

/-- C8 (documenting the code bug): a stream that ends with zero bytes
available exactly where a four-byte checksum field is due — right after the
eight-byte length header, or right after a complete payload — makes
`_read(4)` return `None`, which `_read_and_check` passes straight to
`struct.unpack`, raising a `TypeError`: an unclassified builtin exception,
not the `EventReadingError` its own docstring promises and not any error of
the spec's taxonomy. -/
theorem claim_C8 :
    iterEvents [0, 0, 0, 0, 0, 0, 0, 0] = ([], some .typeError)
    ∧ iterEvents (toLE 8 1 ++ toLE 4 (_masked_crc32c (toLE 8 1)) ++ [5])
        = ([], some .typeError)
    ∧ Err.typeError ≠ Err.truncatedRecord
    ∧ Err.typeError ≠ Err.checksumMismatch
    ∧ Err.typeError ≠ Err.unexpectedEnd := by
  refine ⟨by decide, by decide, by decide, by decide, by decide⟩

/-- C6: constructing the reader with a type filter containing any name
other than `scalar` or `image` raises the `ValueError` of
`_check_type_names` (the spec's `ConfigurationError`); construction with an
absent filter or with a filter whose members all lie in the decoder-key set
succeeds.  The validation is part of `__init__` itself, which takes no
directory contents: no file is enumerated or opened. -/
theorem claim_C6 :
    (∀ tf : List String, (∃ t ∈ tf, t ≠ "scalar" ∧ t ≠ "image") →
      ∀ tagf, summaryReaderInit tagf (some tf) = .error .configurationError)
    ∧ (∀ tf : List String, (∀ t ∈ tf, t = "scalar" ∨ t = "image") →
      ∀ tagf, summaryReaderInit tagf (some tf) = .ok ⟨tagf, some tf⟩)
    ∧ (∀ tagf, summaryReaderInit tagf none = .ok ⟨tagf, none⟩) := by
  refine ⟨?_, ?_, ?_⟩
  · rintro tf ⟨t, ht, h1, h2⟩ tagf
    have hnot : ¬ ((tf.all fun t => decoderKeys.contains t) = true) := by
      rw [List.all_eq_true]
      intro hall
      have hmem := hall t ht
      simp [decoderKeys] at hmem
      rcases hmem with h | h
      · exact h1 h
      · exact h2 h
    have hfalse : checkTypeNames (some tf) = false := by
      simp only [checkTypeNames]
      simpa using hnot
    simp [summaryReaderInit, hfalse]
  · intro tf h tagf
    have htrue : checkTypeNames (some tf) = true := by
      simp only [checkTypeNames, List.all_eq_true]
      intro t ht
      rcases h t ht with h1 | h1 <;> simp [decoderKeys, h1]
    simp [summaryReaderInit, htrue]
  · intro tagf
    simp [summaryReaderInit, checkTypeNames]

theorem claim_C6_witness :
    summaryReaderInit none (some ["audio"]) = .error .configurationError
    ∧ summaryReaderInit none (some ["image"]) = .ok ⟨none, some ["image"]⟩
    ∧ summaryReaderInit (some ["loss"]) none = .ok ⟨some ["loss"], none⟩ :=
  ⟨claim_C6.1 ["audio"] ⟨"audio", by decide, by decide, by decide⟩ none,
    claim_C6.2.1 ["image"] (by decide) none,
    claim_C6.2.2 (some ["loss"])⟩

/-- A validated type filter only ever puts decoder keys into the iteration
list of `_decode_events`. -/
theorem typeList_mem (r : SummaryReader)
    (hr : checkTypeNames r._type_filter = true) :
    ∀ t ∈ typeList r, t = "scalar" ∨ t = "image" := by
  intro t ht
  unfold typeList at ht
  match hmatch : r._type_filter with
  | none =>
    rw [hmatch] at ht
    simp [decoderKeys] at ht
    exact ht
  | some tf =>
    rw [hmatch] at ht
    rw [hmatch] at hr
    simp only [checkTypeNames, List.all_eq_true] at hr
    have := hr t ht
    simp [decoderKeys] at this
    exact this

/-- On a value that carries only an undecodable image payload, every
decoder in a validated type list returns `None`, so the inner loop falls
through to its `else` clause and yields `None`. -/
theorem decodeValue_none_of_undecodable
    (imdecode : List Nat → Option (List Nat)) (step wall_time : Int)
    (v : TBValue) (enc : List Nat) (himg : v.image = some enc)
    (hfail : imdecode enc = none) (hnos : v.simple_value = none) :
    ∀ tl : List String, (∀ t ∈ tl, t = "scalar" ∨ t = "image") →
      decodeValue imdecode step wall_time v tl = none := by
  intro tl
  induction tl with
  | nil => intro _; rfl
  | cons t ts ih =>
    intro h
    have hd : _DECODERS imdecode t v = none := by
      rcases h t (List.mem_cons_self t ts) with h1 | h1 <;> subst h1
      · simp [_DECODERS, _get_scalar, hnos]
      · simp [_DECODERS, _get_image, himg, hfail]
    simp only [decodeValue, hd]
    exact ih (fun t ht => h t (List.mem_cons_of_mem _ ht))

/-- C5 (amended): the code does NOT surface an explicit decode failure.
When the image codec cannot decode the bytes, `cv2.imdecode` returns
`None`, `_get_image` forwards it, and the Value is silently dropped: the
inner loop yields `None`, no item survives the `filterMap`, and no error of
any kind is produced — there is no failure channel in the extraction layer
at all.  The original claim, which demands an `ImageDecodeFailure`, fails:
see the counterexample. -/
theorem claim_C5 (imdecode : List Nat → Option (List Nat)) (v : TBValue)
    (enc : List Nat) (himg : v.image = some enc)
    (hfail : imdecode enc = none) (hnos : v.simple_value = none)
    (r : SummaryReader) (hr : checkTypeNames r._type_filter = true)
    (step wall_time : Int) :
    decodeValue imdecode step wall_time v (typeList r) = none
    ∧ (_decode_events imdecode r [⟨true, step, wall_time, [v]⟩]).filterMap id
        = [] := by
  have h1 := decodeValue_none_of_undecodable imdecode step wall_time v enc
    himg hfail hnos (typeList r) (typeList_mem r hr)
  refine ⟨h1, ?_⟩
  simp [_decode_events, summaryValues, h1]

/-- C5 counterexample: a Value holding image bytes the codec rejects flows
through `_decode_events` as a plain `None` — same as a value with no
payload at all — with no item and no error, refuting the claim that an
explicit `ImageDecodeFailure` is surfaced. -/
theorem claim_C5_counterexample :
    _decode_events (fun _ => none) ⟨none, none⟩
        [⟨true, 0, 0, [⟨"img", none, some [9, 9]⟩]⟩] = [none]
    ∧ (_decode_events (fun _ => none) ⟨none, none⟩
        [⟨true, 0, 0, [⟨"img", none, some [9, 9]⟩]⟩]).filterMap id = [] := by
  refine ⟨by decide, by decide⟩

theorem claim_C5_witness :
    decodeValue (fun _ => none) 0 0 ⟨"img", none, some [9, 9]⟩
        (typeList ⟨none, none⟩) = none :=
  (claim_C5 (fun _ => none) ⟨"img", none, some [9, 9]⟩ [9, 9] rfl rfl rfl
    ⟨none, none⟩ rfl 0 0).1

/-- C9: each Value entry contributes exactly one element to the output of
`_decode_events`, an `Option` — never two items; when it is an item, its
`type` names a decoder of the active type list and its `value` is exactly
what that decoder returned (in particular it is present, never `None`);
and the inner loop stops at the first decoder that returns data, so later
decoders in the list cannot contribute. -/
theorem claim_C9 (imdecode : List Nat → Option (List Nat))
    (step wall_time : Int) (v : TBValue) :
    (∀ (tl : List String) (it : SummaryItem),
      decodeValue imdecode step wall_time v tl = some it →
        it.type ∈ tl ∧ _DECODERS imdecode it.type v = some it.value
          ∧ it.tag = v.tag ∧ it.step = step ∧ it.wall_time = wall_time)
    ∧ (∀ (t : String) (ts : List String) (d : TBData),
        _DECODERS imdecode t v = some d →
        decodeValue imdecode step wall_time v (t :: ts)
          = some ⟨v.tag, step, wall_time, d, t⟩)
    ∧ (∀ (r : SummaryReader) (e : TBEvent),
        (_decode_events imdecode r [e]).length
          = (if e.has_summary then 0 else 1) + (summaryValues e).length) := by
  refine ⟨?_, ?_, ?_⟩
  · intro tl
    induction tl with
    | nil => intro it h; exact absurd h (by simp [decodeValue])
    | cons t ts ih =>
      intro it h
      simp only [decodeValue] at h
      match hd : _DECODERS imdecode t v with
      | some data =>
        rw [hd] at h
        simp only [Option.some.injEq] at h
        subst h
        exact ⟨List.mem_cons_self t ts, by simpa using hd, rfl, rfl, rfl⟩
      | none =>
        rw [hd] at h
        obtain ⟨h1, h2, h3, h4, h5⟩ := ih it h
        exact ⟨List.mem_cons_of_mem t h1, h2, h3, h4, h5⟩
  · intro t ts d hd
    simp [decodeValue, hd]
  · intro r e
    cases he : e.has_summary <;>
      simp [_decode_events, summaryValues, he]

theorem claim_C9_witness :
    (⟨"t", 0, 0, TBData.scalar 3, "scalar"⟩ : SummaryItem).type
        ∈ ["scalar", "image"]
    ∧ _DECODERS (fun _ => none) "scalar" ⟨"t", some 3, none⟩
        = some (TBData.scalar 3)
    ∧ (⟨"t", 0, 0, TBData.scalar 3, "scalar"⟩ : SummaryItem).tag
        = TBValue.tag ⟨"t", some 3, none⟩
    ∧ (⟨"t", 0, 0, TBData.scalar 3, "scalar"⟩ : SummaryItem).step = 0
    ∧ (⟨"t", 0, 0, TBData.scalar 3, "scalar"⟩ : SummaryItem).wall_time = 0 :=
  (claim_C9 (fun _ => none) 0 0 ⟨"t", some 3, none⟩).1 ["scalar", "image"]
    ⟨"t", 0, 0, TBData.scalar 3, "scalar"⟩ (by decide)

theorem filterMap_id_map_none {α β : Type} (l : List α) :
    (l.map (fun _ => (none : Option β))).filterMap id = [] := by
  induction l with
  | nil => rfl
  | cons a as ih => simp [ih]

/-- With an empty type filter the inner loop has nothing to iterate over,
so every produced element is `None` and nothing survives the `filterMap`. -/
theorem decode_events_typeFilter_empty (imdecode : List Nat → Option (List Nat))
    (tagf : Option (List String)) (events : List TBEvent) :
    (_decode_events imdecode ⟨tagf, some []⟩ events).filterMap id = [] := by
  induction events with
  | nil => rfl
  | cons e es ih =>
    have hnone : ∀ v : TBValue,
        decodeValue imdecode e.step e.wall_time v
          (typeList ⟨tagf, some []⟩) = none := fun _ => rfl
    simp only [_decode_events, List.flatMap_cons, List.filterMap_append] at ih ⊢
    rw [ih]
    simp only [hnone, List.filterMap_append, List.append_nil]
    cases he : e.has_summary <;>
      simp [filterMap_id_map_none]

theorem fileOutput_items_typeFilter_empty
    (imdecode : List Nat → Option (List Nat))
    (parse : List Nat → Option TBEvent) (tagf : Option (List String))
    (contents : List Nat) :
    (fileOutput imdecode parse ⟨tagf, some []⟩ contents).1 = [] := by
  simp [fileOutput, decode_events_typeFilter_empty]

theorem fileOutput_items_tagFilter_empty
    (imdecode : List Nat → Option (List Nat))
    (parse : List Nat → Option TBEvent) (tyf : Option (List String))
    (contents : List Nat) :
    (fileOutput imdecode parse ⟨some [], tyf⟩ contents).1 = [] := by
  have htag : ∀ tag, _check_tag ⟨some [], tyf⟩ tag = false := fun _ => rfl
  simp [fileOutput, htag]

theorem processFiles_items_nil (imdecode : List Nat → Option (List Nat))
    (parse : List Nat → Option TBEvent) (r : SummaryReader)
    (h : ∀ c, (fileOutput imdecode parse r c).1 = []) :
    ∀ fs, (processFiles imdecode parse r fs).1 = [] := by
  intro fs
  induction fs with
  | nil => rfl
  | cons f fs ih =>
    obtain ⟨name, contents⟩ := f
    rcases h2 : (fileOutput imdecode parse r contents).2 with _ | e
    · simp [processFiles, h2, h contents, ih]
    · simp [processFiles, h2, h contents]

/-- C10: an empty-set filter is not the absent filter.  Construction with
an empty type filter passes validation (vacuously, every member is a
decoder key), yet the reader then yields no item from any directory; and a
reader with an empty tag filter likewise yields no item from any
directory, since no tag is a member of the empty set. -/
theorem claim_C10 :
    summaryReaderInit none (some []) = .ok ⟨none, some []⟩
    ∧ (∀ (imdecode : List Nat → Option (List Nat))
        (parse : List Nat → Option TBEvent)
        (files : List (String × List Nat)),
        (summaryIter imdecode parse ⟨none, some []⟩ files).1 = [])
    ∧ (∀ (imdecode : List Nat → Option (List Nat))
        (parse : List Nat → Option TBEvent)
        (files : List (String × List Nat)),
        (summaryIter imdecode parse ⟨some [], none⟩ files).1 = []) := by
  refine ⟨rfl, ?_, ?_⟩
  · intro imdecode parse files
    exact processFiles_items_nil imdecode parse ⟨none, some []⟩
      (fileOutput_items_typeFilter_empty imdecode parse none) _
  · intro imdecode parse files
    exact processFiles_items_nil imdecode parse ⟨some [], none⟩
      (fileOutput_items_tagFilter_empty imdecode parse none) _

/-! ## Directory ordering

Python's `sorted` on the `glob` result orders the files by name; to show
the order is canonical we prove the sort output is the unique
name-sorted permutation of the listing when filenames are distinct, so the
enumeration order of the filesystem cannot matter. -/

/-- Strict filename order on directory entries. -/
def nameLt (p q : String × List Nat) : Prop := p.1 < q.1

instance : IsAntisymm (String × List Nat) nameLt :=
  ⟨fun _ _ h1 h2 => absurd h2 (lt_asymm h1)⟩

theorem mergeSort_sorted_strict (fs : List (String × List Nat))
    (hn : (fs.map Prod.fst).Nodup) :
    List.Sorted nameLt (fs.mergeSort nameLe) := by
  have htrans : ∀ a b c : String × List Nat,
      nameLe a b = true → nameLe b c = true → nameLe a c = true := by
    intro a b c h1 h2
    simp only [nameLe, decide_eq_true_eq] at h1 h2 ⊢
    exact le_trans h1 h2
  have htotal : ∀ a b : String × List Nat,
      (nameLe a b || nameLe b a) = true := by
    intro a b
    simp only [nameLe, Bool.or_eq_true, decide_eq_true_eq]
    exact le_total a.1 b.1
  have hpair := List.sorted_mergeSort htrans htotal fs
  have hperm := List.mergeSort_perm fs nameLe
  have hnodup : ((fs.mergeSort nameLe).map Prod.fst).Nodup :=
    ((hperm.map Prod.fst).nodup_iff).mpr hn
  have hpne : List.Pairwise (fun a b : String × List Nat => a.1 ≠ b.1)
      (fs.mergeSort nameLe) := List.pairwise_map.mp hnodup
  have hcomb := hpair.and hpne
  refine hcomb.imp ?_
  rintro a b ⟨hle, hne⟩
  simp only [nameLe, decide_eq_true_eq] at hle
  exact lt_of_le_of_ne hle hne

/-- With distinct filenames the sorted listing is determined by the set of
entries alone: any two permutations of the directory sort identically. -/
theorem mergeSort_eq_of_perm (fs1 fs2 : List (String × List Nat))
    (hperm : fs1.Perm fs2) (hn : (fs1.map Prod.fst).Nodup) :
    fs1.mergeSort nameLe = fs2.mergeSort nameLe := by
  have hn2 : (fs2.map Prod.fst).Nodup := ((hperm.map Prod.fst).nodup_iff).mp hn
  refine List.eq_of_perm_of_sorted ?_ (mergeSort_sorted_strict fs1 hn)
    (mergeSort_sorted_strict fs2 hn2)
  exact ((List.mergeSort_perm fs1 nameLe).trans hperm).trans
    (List.mergeSort_perm fs2 nameLe).symm

theorem processFiles_single_items (imdecode : List Nat → Option (List Nat))
    (parse : List Nat → Option TBEvent) (r : SummaryReader)
    (n : String) (c : List Nat) :
    (processFiles imdecode parse r [(n, c)]).1
      = (fileOutput imdecode parse r c).1 := by
  rcases h2 : (fileOutput imdecode parse r c).2 with _ | e <;>
    simp [processFiles, h2]

/-- C7: the merged output is determined by the directory contents alone —
any filesystem enumeration order (any permutation of the listing) yields
the same output when filenames are distinct — and for two files whose
names satisfy `a < b`, even when the listing arrives in the reversed
order the reader processes file `a` entirely before file `b`, so with no
error in file `a` the merged item list is exactly the items of `a`
followed by the items of `b`. -/
theorem claim_C7 :
    (∀ (imdecode : List Nat → Option (List Nat))
      (parse : List Nat → Option TBEvent) (r : SummaryReader)
      (fs1 fs2 : List (String × List Nat)),
      fs1.Perm fs2 → (fs1.map Prod.fst).Nodup →
      summaryIter imdecode parse r fs1 = summaryIter imdecode parse r fs2)
    ∧ (∀ (imdecode : List Nat → Option (List Nat))
        (parse : List Nat → Option TBEvent) (r : SummaryReader)
        (a b : String) (ca cb : List Nat), a < b →
        summaryIter imdecode parse r [(b, cb), (a, ca)]
          = processFiles imdecode parse r [(a, ca), (b, cb)])
    ∧ (∀ (imdecode : List Nat → Option (List Nat))
        (parse : List Nat → Option TBEvent) (r : SummaryReader)
        (a b : String) (ca cb : List Nat), a < b →
        (fileOutput imdecode parse r ca).2 = none →
        (summaryIter imdecode parse r [(b, cb), (a, ca)]).1
          = (fileOutput imdecode parse r ca).1
            ++ (fileOutput imdecode parse r cb).1) := by
  have hsort : ∀ (a b : String) (ca cb : List Nat), a < b →
      ([(b, cb), (a, ca)] : List (String × List Nat)).mergeSort nameLe
        = [(a, ca), (b, cb)] := by
    intro a b ca cb hab
    have hn : (([(b, cb), (a, ca)] : List (String × List Nat)).map
        Prod.fst).Nodup := by
      simp [List.Nodup]
      exact fun h => absurd h.symm (ne_of_lt hab)
    refine List.eq_of_perm_of_sorted ?_ (mergeSort_sorted_strict _ hn) ?_
    · exact (List.mergeSort_perm _ nameLe).trans
        (List.Perm.swap (a, ca) (b, cb) [])
    · refine List.pairwise_cons.mpr ⟨?_, List.pairwise_singleton _ _⟩
      intro x hx
      simp at hx
      subst hx
      exact hab
  refine ⟨?_, ?_, ?_⟩
  · intro imdecode parse r fs1 fs2 hperm hn
    unfold summaryIter
    rw [mergeSort_eq_of_perm fs1 fs2 hperm hn]
  · intro imdecode parse r a b ca cb hab
    unfold summaryIter
    rw [hsort a b ca cb hab]
  · intro imdecode parse r a b ca cb hab herr
    unfold summaryIter
    rw [hsort a b ca cb hab]
    rw [show (processFiles imdecode parse r [(a, ca), (b, cb)])
        = ((fileOutput imdecode parse r ca).1
            ++ (processFiles imdecode parse r [(b, cb)]).1,
          (processFiles imdecode parse r [(b, cb)]).2) by
      simp [processFiles, herr]]
    rw [processFiles_single_items]

theorem claim_C7_witness :
    summaryIter (fun _ => none) (fun _ => none) ⟨none, none⟩
        [("b", [1]), ("a", [])]
      = summaryIter (fun _ => none) (fun _ => none) ⟨none, none⟩
        [("a", []), ("b", [1])] :=
  claim_C7.1 (fun _ => none) (fun _ => none) ⟨none, none⟩
    [("b", [1]), ("a", [])] [("a", []), ("b", [1])]
    (List.Perm.swap ("a", []) ("b", [1]) []) (by decide)

end Tensorboard
